import Mathlib

/-!
Verification of the tree-to-graph flattening core of the TRPG script editor
(src/main.py).  The Python source decodes a JSON document into nested dicts
and flattens it into three parallel structures: `events` (first-seen distinct
names), `labels` (per-event lists of path ids) and `links` (edges annotated
with option text).  Python dicts preserve insertion order, so they are
embedded as association lists; JSON values become the inductive `Json`;
Python `list.pop()` / `list.extend(..)` on the work list act on the tail,
so the work list is embedded reversed (head of the Lean list = top of the
Python stack).  The `while nodes:` loop is embedded with explicit fuel
(`Err.outOfFuel` marks exhaustion; termination is proved separately), and
the `AttributeError` the source raises when calling `.items()` on a
non-dict value is embedded as `Err.attrError`.
-/

namespace TRPG

/-- JSON values as produced by `json.loads`: objects keep key order, so they
are association lists.  Numbers are embedded as integers (no claim touches
fractional values). -/
inductive Json where
  | str : String → Json
  | num : Int → Json
  | jbool : Bool → Json
  | null : Json
  | arr : List Json → Json
  | obj : List (String × Json) → Json

mutual

/-- Structural equality of JSON values, mirroring Python `==` on decoded
JSON data (used by `in` and `list.index` in the source). -/
def beqJ : Json → Json → Bool
  | .str a, .str b => a == b
  | .num a, .num b => a == b
  | .jbool a, .jbool b => a == b
  | .null, .null => true
  | .arr a, .arr b => beqL a b
  | .obj a, .obj b => beqO a b
  | _, _ => false

/-- Elementwise equality of JSON arrays. -/
def beqL : List Json → List Json → Bool
  | [], [] => true
  | a :: as, b :: bs => beqJ a b && beqL as bs
  | _, _ => false

/-- Entrywise equality of JSON objects (key order matters, as it does for
the association lists the embedding uses). -/
def beqO : List (String × Json) → List (String × Json) → Bool
  | [], [] => true
  | (k, v) :: as, (k', v') :: bs => k == k' && beqJ v v' && beqO as bs
  | _, _ => false

end

mutual

theorem beqJ_refl : ∀ a : Json, beqJ a a = true
  | .str a => by simp [beqJ]
  | .num a => by simp [beqJ]
  | .jbool a => by simp [beqJ]
  | .null => by simp [beqJ]
  | .arr a => by simp [beqJ, beqL_refl a]
  | .obj a => by simp [beqJ, beqO_refl a]

theorem beqL_refl : ∀ a : List Json, beqL a a = true
  | [] => by simp [beqL]
  | a :: as => by simp [beqL, beqJ_refl a, beqL_refl as]

theorem beqO_refl : ∀ a : List (String × Json), beqO a a = true
  | [] => by simp [beqO]
  | (k, v) :: as => by simp [beqO, beqJ_refl v, beqO_refl as]

end

mutual

theorem beqJ_eq : ∀ a b : Json, beqJ a b = true → a = b
  | .str a, .str b => by simp [beqJ]
  | .str _, .num _ => by simp [beqJ]
  | .str _, .jbool _ => by simp [beqJ]
  | .str _, .null => by simp [beqJ]
  | .str _, .arr _ => by simp [beqJ]
  | .str _, .obj _ => by simp [beqJ]
  | .num _, .str _ => by simp [beqJ]
  | .num a, .num b => by simp [beqJ]
  | .num _, .jbool _ => by simp [beqJ]
  | .num _, .null => by simp [beqJ]
  | .num _, .arr _ => by simp [beqJ]
  | .num _, .obj _ => by simp [beqJ]
  | .jbool _, .str _ => by simp [beqJ]
  | .jbool _, .num _ => by simp [beqJ]
  | .jbool a, .jbool b => by simp [beqJ]
  | .jbool _, .null => by simp [beqJ]
  | .jbool _, .arr _ => by simp [beqJ]
  | .jbool _, .obj _ => by simp [beqJ]
  | .null, .str _ => by simp [beqJ]
  | .null, .num _ => by simp [beqJ]
  | .null, .jbool _ => by simp [beqJ]
  | .null, .null => by simp
  | .null, .arr _ => by simp [beqJ]
  | .null, .obj _ => by simp [beqJ]
  | .arr _, .str _ => by simp [beqJ]
  | .arr _, .num _ => by simp [beqJ]
  | .arr _, .jbool _ => by simp [beqJ]
  | .arr _, .null => by simp [beqJ]
  | .arr a, .arr b => by
      simp only [beqJ]
      intro h
      rw [beqL_eq a b h]
  | .arr _, .obj _ => by simp [beqJ]
  | .obj _, .str _ => by simp [beqJ]
  | .obj _, .num _ => by simp [beqJ]
  | .obj _, .jbool _ => by simp [beqJ]
  | .obj _, .null => by simp [beqJ]
  | .obj _, .arr _ => by simp [beqJ]
  | .obj a, .obj b => by
      simp only [beqJ]
      intro h
      rw [beqO_eq a b h]

theorem beqL_eq : ∀ a b : List Json, beqL a b = true → a = b
  | [], [] => by simp
  | [], _ :: _ => by simp [beqL]
  | _ :: _, [] => by simp [beqL]
  | a :: as, b :: bs => by
      simp only [beqL, Bool.and_eq_true]
      rintro ⟨h1, h2⟩
      rw [beqJ_eq a b h1, beqL_eq as bs h2]

theorem beqO_eq : ∀ a b : List (String × Json), beqO a b = true → a = b
  | [], [] => by simp
  | [], _ :: _ => by simp [beqO]
  | _ :: _, [] => by simp [beqO]
  | (k, v) :: as, (k', v') :: bs => by
      simp only [beqO, Bool.and_eq_true]
      rintro ⟨⟨h0, h1⟩, h2⟩
      rw [beqJ_eq v v' h1, beqO_eq as bs h2, show k = k' from by simpa using h0]

end

instance : DecidableEq Json := fun a b =>
  decidable_of_iff (beqJ a b = true) ⟨beqJ_eq a b, fun h => by rw [h]; exact beqJ_refl b⟩

/-- `@dataclass class Node` of the source: an occurrence of an event in the
tree walk.  `children` is the raw decoded value attached to the event
(a dict in well-shaped input). -/
structure Node where
  name : String
  children : Json
  id : String
deriving DecidableEq

/-- `@dataclass class Link` of the source: one edge of the flattened graph.
The source stores the raw outcome value in the third field (a string key
for nested branches, the raw JSON value for terminal outcomes). -/
structure Link where
  event : String
  option : String
  children : Json
deriving DecidableEq

/-- Failure values of the embedded pipeline: `emptyRoot` is the
`return None, None, None` of `parse_story`; `attrError` is the
`AttributeError` Python raises when the loop calls `.items()` on a
non-dict `children` value; `outOfFuel` is an artifact of the fuel-based
embedding of the `while` loop and is proved unreachable. -/
inductive Err where
  | emptyRoot
  | attrError
  | outOfFuel
deriving DecidableEq

instance {ε α : Type} [DecidableEq ε] [DecidableEq α] : DecidableEq (Except ε α) :=
  fun a b =>
    match a, b with
    | .ok x, .ok y => decidable_of_iff (x = y) (by simp)
    | .error x, .error y => decidable_of_iff (x = y) (by simp)
    | .ok _, .error _ => .isFalse (by simp)
    | .error _, .ok _ => .isFalse (by simp)

/-- The two identical registration blocks of the source: if `x` is not yet
in `events`, append it together with a fresh one-element label bucket;
otherwise append the path id to the bucket at `events.index(x)`. -/
def register (es : List Json) (ls : List (List String)) (x : Json) (id : String) :
    List Json × List (List String) :=
  if x ∉ es then
    (es ++ [x], ls ++ [[id]])
  else
    (es, ls.set (es.indexOf x) (ls.getD (es.indexOf x) [] ++ [id]))

/-- The `for option, outcome in node.children.items():` body of the source.
Carries `branch_idx` (`bidx`), the nodes pushed so far (`pushed`, in Python
append order), and the events/labels/links accumulators.  For a dict
outcome it appends one link per key, then builds the child nodes with ids
`node.id + "-" + str(idx + branch_idx)` (`List.enumFrom bidx` yields
exactly the offsets `idx + branch_idx` of `enumerate`), then advances
`branch_idx` by the size of the mapping; for any other outcome it appends
one link and registers the outcome under `node.id + "-end"`. -/
def processChildren (nodeName nodeId : String) :
    List (String × Json) → Nat → List Node → List Json → List (List String) → List Link →
    List Node × List Json × List (List String) × List Link
  | [], _, pushed, es, ls, ks => (pushed, es, ls, ks)
  | (opt, outcome) :: rest, bidx, pushed, es, ls, ks =>
    match outcome with
    | .obj ts =>
      let ks₁ := ks ++ ts.map fun e => Link.mk nodeName opt (.str e.1)
      let newNodes := (ts.enumFrom bidx).map fun e =>
        Node.mk e.2.1 e.2.2 (nodeId ++ "-" ++ Nat.repr e.1)
      processChildren nodeName nodeId rest (bidx + ts.length) (pushed ++ newNodes) es ls ks₁
    | _ =>
      let ks₁ := ks ++ [Link.mk nodeName opt outcome]
      let r := register es ls outcome (nodeId ++ "-end")
      processChildren nodeName nodeId rest bidx pushed r.1 r.2 ks₁

/-- The `while nodes:` loop of `parse_story`, with explicit fuel.  The head
of the node list is the top of the Python stack, so `nodes.pop()` is a
head match and `nodes.extend(xs)` prepends `xs.reverse`.  Each iteration
registers the popped node's name under its path id, then walks its
children. -/
def loop : Nat → List Node → List Json → List (List String) → List Link →
    Except Err (List Json × List (List String) × List Link)
  | _, [], es, ls, ks => .ok (es, ls, ks)
  | 0, _ :: _, _, _, _ => .error .outOfFuel
  | fuel + 1, node :: rest, es, ls, ks =>
    let r := register es ls (.str node.name) node.id
    match node.children with
    | .obj kvs =>
      let p := processChildren node.name node.id kvs 0 [] r.1 r.2 ks
      loop fuel (p.1.reverse ++ rest) p.2.1 p.2.2.1 p.2.2.2
    | _ => .error .attrError

mutual

/-- Weight of a JSON value viewed as a `children` payload; dominates the
total weight of the nodes a work-list entry with this payload can push. -/
def owt : Json → Nat
  | .obj kvs => 1 + lwt kvs
  | _ => 1

/-- Weight of an object's entry list. -/
def lwt : List (String × Json) → Nat
  | [] => 0
  | (_, v) :: rest => 1 + owt v + lwt rest

end

/-- Total weight of a work list; every loop iteration strictly decreases
it, so it is a valid fuel bound. -/
def stackW (ns : List Node) : Nat :=
  (ns.map fun n => owt n.children).sum

/-- Truthiness of a decoded JSON value, as Python's `not story_data`
computes it. -/
def py_falsy : Json → Bool
  | .str s => s == ""
  | .num n => n == 0
  | .jbool b => !b
  | .null => true
  | .arr l => l.isEmpty
  | .obj kvs => kvs.isEmpty

/-- Python's `isinstance(story_data, dict)`. -/
def is_dict : Json → Bool
  | .obj _ => true
  | _ => false

/-- The seeding of the work list from the top-level object: one `Node` per
`(event, outcomes)` pair with ids `chr(ord("A") + idx)`, reversed because
the embedded work list keeps the Python stack top at its head. -/
def initNodes (kvs : List (String × Json)) : List Node :=
  (kvs.enum.map fun e => Node.mk e.2.1 e.2.2 (String.mk [Char.ofNat (65 + e.1)])).reverse

/-- `parse_story` of the source, as a function of the decoded document
(the source reads it from the editor's session state).  Rejects a falsy or
non-dict root exactly as `if not story_data or not isinstance(story_data,
dict)` does, then runs the work-list loop; the fuel `stackW ns` is an
embedding artifact and is proved sufficient for well-shaped trees.  The
final fallback arm is unreachable (the guard already rejected every
non-object). -/
def parse_story (story_data : Json) :
    Except Err (List Json × List (List String) × List Link) :=
  if py_falsy story_data || !(is_dict story_data) then .error .emptyRoot
  else
    match story_data with
    | .obj kvs =>
      let ns := initNodes kvs
      loop (stackW ns) ns [] [] []
    | _ => .error .emptyRoot

/-- The `(option, outcome)` entries of a children dict whose outcome is a
nested mapping, concatenated in order: the nodes a single popped parent
pushes are exactly these entries, and the source numbers them
consecutively across the whole concatenation via `branch_idx`. -/
def nestedEntries : List (String × Json) → List (String × Json)
  | [] => []
  | (_, .obj ts) :: rest => ts ++ nestedEntries rest
  | _ :: rest => nestedEntries rest

/-- Modelled from the spec's words for comparison with the source (claim
about the child index scheme): identical to `processChildren` except that
the enumeration of every nested mapping restarts at index 0 — the
`branch_idx` offset and its accumulation are dropped. -/
def processChildrenRestart (nodeName nodeId : String) :
    List (String × Json) → List Node → List Json → List (List String) → List Link →
    List Node × List Json × List (List String) × List Link
  | [], pushed, es, ls, ks => (pushed, es, ls, ks)
  | (opt, outcome) :: rest, pushed, es, ls, ks =>
    match outcome with
    | .obj ts =>
      let ks₁ := ks ++ ts.map fun e => Link.mk nodeName opt (.str e.1)
      let newNodes := ts.enum.map fun e =>
        Node.mk e.2.1 e.2.2 (nodeId ++ "-" ++ Nat.repr e.1)
      processChildrenRestart nodeName nodeId rest (pushed ++ newNodes) es ls ks₁
    | _ =>
      let ks₁ := ks ++ [Link.mk nodeName opt outcome]
      let r := register es ls outcome (nodeId ++ "-end")
      processChildrenRestart nodeName nodeId rest pushed r.1 r.2 ks₁

/-- Modelled from the spec's words for comparison with the source: the
work-list loop built on the restart-at-0 index scheme. -/
def loopRestart : Nat → List Node → List Json → List (List String) → List Link →
    Except Err (List Json × List (List String) × List Link)
  | _, [], es, ls, ks => .ok (es, ls, ks)
  | 0, _ :: _, _, _, _ => .error .outOfFuel
  | fuel + 1, node :: rest, es, ls, ks =>
    let r := register es ls (.str node.name) node.id
    match node.children with
    | .obj kvs =>
      let p := processChildrenRestart node.name node.id kvs [] r.1 r.2 ks
      loopRestart fuel (p.1.reverse ++ rest) p.2.1 p.2.2.1 p.2.2.2
    | _ => .error .attrError

/-- Modelled from the spec's words for comparison with the source: the
flattener built on the restart-at-0 index scheme of the claim. -/
def parse_storyRestart (story_data : Json) :
    Except Err (List Json × List (List String) × List Link) :=
  if py_falsy story_data || !(is_dict story_data) then .error .emptyRoot
  else
    match story_data with
    | .obj kvs =>
      let ns := initNodes kvs
      loopRestart (stackW ns) ns [] [] []
    | _ => .error .emptyRoot

/-- Scenario 1 input `{"S": {"A": "E1", "B": "E2"}}`. -/
def s1 : Json := .obj [("S", .obj [("A", .str "E1"), ("B", .str "E2")])]

/-- Scenario 3 input `{"S": {"A": {"S": {"B": "E1"}}}}`. -/
def s3 : Json := .obj [("S", .obj [("A", .obj [("S", .obj [("B", .str "E1")])])])]

/-- A parent with two nested-mapping children:
`{"S": {"A": {"T1": {"x": "E"}}, "B": {"T2": {"y": "F"}}}}`. -/
def twoBranch : Json :=
  .obj [("S", .obj [("A", .obj [("T1", .obj [("x", .str "E")])]),
                    ("B", .obj [("T2", .obj [("y", .str "F")])])])]

/-- A top-level mapping whose value is a string, `{"S": "x"}`. -/
def strChild : Json := .obj [("S", .str "x")]

/-- C1 (counterexample): on a parent with two nested-mapping children the
source does not re-use starting index 0 for the second nested mapping —
the flattener differs from the restart-at-0 variant the claim describes
(the second branch node gets path id `"A-1"`, the claim forces `"A-0"`). -/
theorem claim_C1_cex : parse_story twoBranch ≠ parse_storyRestart twoBranch := by decide

/-- The node list a children walk pushes: the concatenated entries of the
nested-mapping outcomes, enumerated consecutively from the starting
`branch_idx`. -/
theorem processChildren_pushed_eq (nodeName nodeId : String) :
    ∀ (kvs : List (String × Json)) (bidx : Nat) (pushed : List Node)
      (es : List Json) (ls : List (List String)) (ks : List Link),
      (processChildren nodeName nodeId kvs bidx pushed es ls ks).1 =
        pushed ++ (List.enumFrom bidx (nestedEntries kvs)).map
          (fun e => Node.mk e.2.1 e.2.2 (nodeId ++ "-" ++ Nat.repr e.1)) := by
  intro kvs
  induction kvs with
  | nil => intro bidx pushed es ls ks; simp [processChildren, nestedEntries]
  | cons kv rest ih =>
    intro bidx pushed es ls ks
    obtain ⟨opt, outcome⟩ := kv
    cases outcome with
    | obj ts =>
      simp only [processChildren, nestedEntries, ih, List.enumFrom_append, List.map_append,
        List.append_assoc]
    | str s => simp only [processChildren, nestedEntries, ih]
    | num n => simp only [processChildren, nestedEntries, ih]
    | jbool b => simp only [processChildren, nestedEntries, ih]
    | null => simp only [processChildren, nestedEntries, ih]
    | arr l => simp only [processChildren, nestedEntries, ih]

/-- C1 (amended): the children a popped node pushes are the concatenated
entries of its nested-mapping outcomes, numbered consecutively from the
running `branch_idx` offset: entry number `i` of the concatenation gets
path id `node.id + "-" + str(bidx + i)`, so the index is a running counter
across all of the parent's nested mappings, not a restart at 0. -/
theorem claim_C1 (nodeName nodeId : String) (kvs : List (String × Json)) (bidx : Nat)
    (pushed : List Node) (es : List Json) (ls : List (List String)) (ks : List Link) :
    (processChildren nodeName nodeId kvs bidx pushed es ls ks).1 =
      pushed ++ (List.enumFrom bidx (nestedEntries kvs)).map
        (fun e => Node.mk e.2.1 e.2.2 (nodeId ++ "-" ++ Nat.repr e.1)) :=
  processChildren_pushed_eq nodeName nodeId kvs bidx pushed es ls ks

/-- C2 (counterexample): on Scenario 1 the flattener does not return the
claimed triple — the label bucket of `"E2"` is `["A-end"]`, not
`["B-end"]`, because both terminal outcomes hang off the same node, whose
path id is `"A"`. -/
theorem claim_C2_cex :
    parse_story s1 ≠
      .ok ([.str "S", .str "E1", .str "E2"],
           [["A"], ["A-end"], ["B-end"]],
           [⟨"S", "A", .str "E1"⟩, ⟨"S", "B", .str "E2"⟩]) := by decide

/-- C2 (amended): on Scenario 1 the flattener returns
`events = ["S","E1","E2"]`, `links = [(S,A,E1),(S,B,E2)]`, and
`labels = [["A"],["A-end"],["A-end"]]` — both terminal outcomes record the
parent node's path id `"A"` suffixed with `-end`. -/
theorem claim_C2 :
    parse_story s1 =
      .ok ([.str "S", .str "E1", .str "E2"],
           [["A"], ["A-end"], ["A-end"]],
           [⟨"S", "A", .str "E1"⟩, ⟨"S", "B", .str "E2"⟩]) := by decide

/-- C3 (counterexample): path ids are not unique per occurrence: on
Scenario 1 the flattener accepts the tree and records the path id
`"A-end"` for two different occurrences (the terminal outcomes `"E1"` and
`"E2"`), so the flattened label list has a duplicate. -/
theorem claim_C3_cex :
    parse_story s1 =
      .ok ([.str "S", .str "E1", .str "E2"],
           [["A"], ["A-end"], ["A-end"]],
           [⟨"S", "A", .str "E1"⟩, ⟨"S", "B", .str "E2"⟩]) ∧
    ¬ ([["A"], ["A-end"], ["A-end"]].flatten).Nodup := by decide

/-- C6: whenever the top-level value is not a non-empty mapping (the empty
mapping included), the flattener fails with the empty-or-invalid-root
error and returns no events, labels or links. -/
theorem claim_C6 (j : Json) (h : ∀ kvs, j = .obj kvs → kvs = []) :
    parse_story j = .error .emptyRoot := by
  cases j with
  | obj kvs =>
    have : kvs = [] := h kvs rfl
    subst this
    decide
  | str s =>
    simp only [parse_story, is_dict, Bool.not_true, Bool.not_false, Bool.or_true, if_true]
  | num n =>
    simp only [parse_story, is_dict, Bool.not_true, Bool.not_false, Bool.or_true, if_true]
  | jbool b =>
    simp only [parse_story, is_dict, Bool.not_true, Bool.not_false, Bool.or_true, if_true]
  | null =>
    simp only [parse_story, is_dict, Bool.not_true, Bool.not_false, Bool.or_true, if_true]
  | arr l =>
    simp only [parse_story, is_dict, Bool.not_true, Bool.not_false, Bool.or_true, if_true]

/-- C6 (witness): the empty mapping `{}` is rejected with the
empty-or-invalid-root error. -/
theorem claim_C6_witness : parse_story (.obj []) = .error .emptyRoot :=
  claim_C6 (.obj []) (fun _ h => by injection h with h; exact h.symm)

/-- C7: on Scenario 3, where the event `"S"` recurs as a nested branch
target, the flattener returns `events = ["S","E1"]` and the label bucket
of `"S"` holds the two distinct path ids `"A"` and `"A-0"`, one per
occurrence. -/
theorem claim_C7 :
    parse_story s3 =
      .ok ([.str "S", .str "E1"],
           [["A", "A-0"], ["A-0-end"]],
           [⟨"S", "A", .str "S"⟩, ⟨"S", "B", .str "E1"⟩]) ∧
    (["A", "A-0"] : List String).Nodup := by decide

/-- C8: the pipeline does not fail gracefully on a top-level mapping whose
value is a string: on `{"S": "x"}` the flattening loop calls `.items()` on
the string and the source raises an uncaught `AttributeError` instead of
returning the designed failure value. -/
theorem claim_C8 : parse_story strChild = .error .attrError := by decide

/-- C9: flattening is deterministic — two runs of the flattener on the
same accepted tree produce the same `(events, labels, links)` triple. -/
theorem claim_C9 (j : Json) (r₁ r₂ : List Json × List (List String) × List Link)
    (h₁ : parse_story j = .ok r₁) (h₂ : parse_story j = .ok r₂) : r₁ = r₂ := by
  rw [h₁] at h₂
  exact Except.ok.inj h₂

/-- C9 (witness): determinism applied to the Scenario 1 tree and its
concrete output triple. -/
theorem claim_C9_witness :
    (([Json.str "S", Json.str "E1", Json.str "E2"],
      [["A"], ["A-end"], ["A-end"]],
      [Link.mk "S" "A" (.str "E1"), Link.mk "S" "B" (.str "E2")]) :
        List Json × List (List String) × List Link) =
    ([Json.str "S", Json.str "E1", Json.str "E2"],
     [["A"], ["A-end"], ["A-end"]],
     [Link.mk "S" "A" (.str "E1"), Link.mk "S" "B" (.str "E2")]) :=
  claim_C9 s1
    ([Json.str "S", Json.str "E1", Json.str "E2"],
     [["A"], ["A-end"], ["A-end"]],
     [Link.mk "S" "A" (.str "E1"), Link.mk "S" "B" (.str "E2")])
    ([Json.str "S", Json.str "E1", Json.str "E2"],
     [["A"], ["A-end"], ["A-end"]],
     [Link.mk "S" "A" (.str "E1"), Link.mk "S" "B" (.str "E2")])
    (by decide) (by decide)

theorem register_len (es : List Json) (ls : List (List String)) (x : Json) (id : String)
    (h : es.length = ls.length) :
    (register es ls x id).1.length = (register es ls x id).2.length := by
  unfold register
  split <;> simp [h]

theorem register_ne (es : List Json) (ls : List (List String)) (x : Json) (id : String)
    (h : ∀ l ∈ ls, l ≠ []) :
    ∀ l ∈ (register es ls x id).2, l ≠ [] := by
  unfold register
  split
  · intro l hl
    rcases List.mem_append.1 hl with h' | h'
    · exact h l h'
    · simp only [List.mem_singleton] at h'
      simp [h']
  · intro l hl
    rcases List.mem_or_eq_of_mem_set hl with h' | h'
    · exact h l h'
    · subst h'
      simp

theorem processChildren_labels_inv (nm nid : String) :
    ∀ (kvs : List (String × Json)) (bidx : Nat) (pushed : List Node)
      (es : List Json) (ls : List (List String)) (ks : List Link),
      es.length = ls.length → (∀ l ∈ ls, l ≠ []) →
      (processChildren nm nid kvs bidx pushed es ls ks).2.1.length =
          (processChildren nm nid kvs bidx pushed es ls ks).2.2.1.length ∧
        ∀ l ∈ (processChildren nm nid kvs bidx pushed es ls ks).2.2.1, l ≠ []
  | [], _, _, _, _, _, h₁, h₂ => ⟨h₁, h₂⟩
  | (opt, outcome) :: rest, bidx, pushed, es, ls, ks, h₁, h₂ => by
    cases outcome with
    | obj ts =>
      exact processChildren_labels_inv nm nid rest _ _ _ _ _ h₁ h₂
    | str s =>
      exact processChildren_labels_inv nm nid rest _ _ _ _ _
        (register_len _ _ _ _ h₁) (register_ne _ _ _ _ h₂)
    | num n =>
      exact processChildren_labels_inv nm nid rest _ _ _ _ _
        (register_len _ _ _ _ h₁) (register_ne _ _ _ _ h₂)
    | jbool b =>
      exact processChildren_labels_inv nm nid rest _ _ _ _ _
        (register_len _ _ _ _ h₁) (register_ne _ _ _ _ h₂)
    | null =>
      exact processChildren_labels_inv nm nid rest _ _ _ _ _
        (register_len _ _ _ _ h₁) (register_ne _ _ _ _ h₂)
    | arr l =>
      exact processChildren_labels_inv nm nid rest _ _ _ _ _
        (register_len _ _ _ _ h₁) (register_ne _ _ _ _ h₂)

theorem loop_labels_inv :
    ∀ (fuel : Nat) (stack : List Node) (es : List Json) (ls : List (List String))
      (ks : List Link) (es' : List Json) (ls' : List (List String)) (ks' : List Link),
      loop fuel stack es ls ks = .ok (es', ls', ks') →
      es.length = ls.length → (∀ l ∈ ls, l ≠ []) →
      es'.length = ls'.length ∧ ∀ l ∈ ls', l ≠ []
  | _, [], es, ls, ks, es', ls', ks', h, h₁, h₂ => by
    simp only [loop, Except.ok.injEq, Prod.mk.injEq] at h
    obtain ⟨he, hl, _⟩ := h
    subst he; subst hl
    exact ⟨h₁, h₂⟩
  | 0, _ :: _, _, _, _, _, _, _, h, _, _ => by simp [loop] at h
  | fuel + 1, node :: rest, es, ls, ks, es', ls', ks', h, h₁, h₂ => by
    simp only [loop] at h
    have hr₁ := register_len es ls (.str node.name) node.id h₁
    have hr₂ := register_ne es ls (.str node.name) node.id h₂
    cases hc : node.children with
    | obj kvs =>
      rw [hc] at h
      have hp := processChildren_labels_inv node.name node.id kvs 0 []
        (register es ls (.str node.name) node.id).1
        (register es ls (.str node.name) node.id).2 ks hr₁ hr₂
      exact loop_labels_inv fuel _ _ _ _ es' ls' ks' h hp.1 hp.2
    | str s => rw [hc] at h; simp at h
    | num n => rw [hc] at h; simp at h
    | jbool b => rw [hc] at h; simp at h
    | null => rw [hc] at h; simp at h
    | arr l => rw [hc] at h; simp at h

/-- C5: for every accepted tree the flattener returns as many label
buckets as events, and every label bucket is non-empty. -/
theorem claim_C5 (j : Json) (es : List Json) (ls : List (List String)) (ks : List Link)
    (h : parse_story j = .ok (es, ls, ks)) :
    es.length = ls.length ∧ ∀ l ∈ ls, l ≠ [] := by
  unfold parse_story at h
  split at h
  · simp at h
  · split at h
    · exact loop_labels_inv _ _ _ _ _ _ _ _ h rfl (by simp)
    · simp at h

/-- C5 (witness): the no-orphan-labels guarantee evaluated on the
Scenario 1 tree: three events and three label buckets, and the bucket
`["A-end"]` of the last event is non-empty. -/
theorem claim_C5_witness :
    ([Json.str "S", Json.str "E1", Json.str "E2"] : List Json).length =
        ([["A"], ["A-end"], ["A-end"]] : List (List String)).length ∧
      (["A-end"] : List String) ≠ [] :=
  ⟨(claim_C5 s1 [Json.str "S", Json.str "E1", Json.str "E2"]
      [["A"], ["A-end"], ["A-end"]]
      [Link.mk "S" "A" (.str "E1"), Link.mk "S" "B" (.str "E2")] (by decide)).1,
   (claim_C5 s1 [Json.str "S", Json.str "E1", Json.str "E2"]
      [["A"], ["A-end"], ["A-end"]]
      [Link.mk "S" "A" (.str "E1"), Link.mk "S" "B" (.str "E2")] (by decide)).2
     ["A-end"] (by decide)⟩

theorem register_es_mono (es : List Json) (ls : List (List String)) (x : Json) (id : String) :
    es ⊆ (register es ls x id).1 := by
  unfold register
  split
  · exact List.subset_append_left _ _
  · exact List.Subset.refl _

theorem register_es_mem (es : List Json) (ls : List (List String)) (x : Json) (id : String) :
    x ∈ (register es ls x id).1 := by
  unfold register
  split
  · simp
  · next h => exact not_not.1 h

/-- The names of the nodes a children walk pushes are the keys of the
concatenated nested-mapping entries. -/
theorem processChildren_names (nm nid : String) (kvs : List (String × Json)) (bidx : Nat)
    (es : List Json) (ls : List (List String)) (ks : List Link) :
    ((processChildren nm nid kvs bidx [] es ls ks).1).map Node.name =
      (nestedEntries kvs).map Prod.fst := by
  rw [processChildren_pushed_eq]
  rw [List.nil_append, List.map_map]
  have : (Node.name ∘ fun e : Nat × (String × Json) =>
      Node.mk e.2.1 e.2.2 (nid ++ "-" ++ Nat.repr e.1)) = Prod.fst ∘ Prod.snd := rfl
  rw [this, ← List.map_map, List.enumFrom_map_snd]

theorem processChildren_complete (nm nid : String) :
    ∀ (kvs : List (String × Json)) (bidx : Nat) (pushed : List Node)
      (es : List Json) (ls : List (List String)) (ks : List Link),
      es ⊆ (processChildren nm nid kvs bidx pushed es ls ks).2.1 ∧
      ∀ l ∈ (processChildren nm nid kvs bidx pushed es ls ks).2.2.2,
        l ∈ ks ∨ (l.event = nm ∧
          (l.children ∈ (processChildren nm nid kvs bidx pushed es ls ks).2.1 ∨
           l.children ∈ (nestedEntries kvs).map (fun e => Json.str e.1)))
  | [], _, _, _, _, _ => ⟨List.Subset.refl _, fun _ hl => .inl hl⟩
  | (opt, outcome) :: rest, bidx, pushed, es, ls, ks => by
    cases outcome with
    | obj ts =>
      obtain ⟨ih₁, ih₂⟩ := processChildren_complete nm nid rest (bidx + ts.length)
        (pushed ++ (ts.enumFrom bidx).map fun e =>
          Node.mk e.2.1 e.2.2 (nid ++ "-" ++ Nat.repr e.1))
        es ls (ks ++ ts.map fun e => Link.mk nm opt (.str e.1))
      refine ⟨ih₁, fun l hl => ?_⟩
      rcases ih₂ l hl with h | ⟨he, hc⟩
      · rcases List.mem_append.1 h with h' | h'
        · exact .inl h'
        · obtain ⟨e, he, hl'⟩ := List.mem_map.1 h'
          refine .inr ⟨by rw [← hl'], .inr ?_⟩
          rw [← hl']
          simp only [nestedEntries, List.map_append, List.mem_append]
          exact .inl (List.mem_map.2 ⟨e, he, rfl⟩)
      · refine .inr ⟨he, ?_⟩
        rcases hc with h' | h'
        · exact .inl h'
        · refine .inr ?_
          simp only [nestedEntries, List.map_append, List.mem_append]
          exact .inr h'
    | str s =>
      obtain ⟨ih₁, ih₂⟩ := processChildren_complete nm nid rest bidx pushed
        (register es ls (.str s) (nid ++ "-end")).1
        (register es ls (.str s) (nid ++ "-end")).2
        (ks ++ [Link.mk nm opt (.str s)])
      refine ⟨(register_es_mono es ls (.str s) (nid ++ "-end")).trans ih₁, fun l hl => ?_⟩
      rcases ih₂ l hl with h | ⟨he, hc⟩
      · rcases List.mem_append.1 h with h' | h'
        · exact .inl h'
        · simp only [List.mem_singleton] at h'
          subst h'
          exact .inr ⟨rfl, .inl (ih₁ (register_es_mem es ls (.str s) (nid ++ "-end")))⟩
      · exact .inr ⟨he, hc.imp id (fun h' => by simpa [nestedEntries] using h')⟩
    | num n =>
      obtain ⟨ih₁, ih₂⟩ := processChildren_complete nm nid rest bidx pushed
        (register es ls (.num n) (nid ++ "-end")).1
        (register es ls (.num n) (nid ++ "-end")).2
        (ks ++ [Link.mk nm opt (.num n)])
      refine ⟨(register_es_mono es ls (.num n) (nid ++ "-end")).trans ih₁, fun l hl => ?_⟩
      rcases ih₂ l hl with h | ⟨he, hc⟩
      · rcases List.mem_append.1 h with h' | h'
        · exact .inl h'
        · simp only [List.mem_singleton] at h'
          subst h'
          exact .inr ⟨rfl, .inl (ih₁ (register_es_mem es ls (.num n) (nid ++ "-end")))⟩
      · exact .inr ⟨he, hc.imp id (fun h' => by simpa [nestedEntries] using h')⟩
    | jbool b =>
      obtain ⟨ih₁, ih₂⟩ := processChildren_complete nm nid rest bidx pushed
        (register es ls (.jbool b) (nid ++ "-end")).1
        (register es ls (.jbool b) (nid ++ "-end")).2
        (ks ++ [Link.mk nm opt (.jbool b)])
      refine ⟨(register_es_mono es ls (.jbool b) (nid ++ "-end")).trans ih₁, fun l hl => ?_⟩
      rcases ih₂ l hl with h | ⟨he, hc⟩
      · rcases List.mem_append.1 h with h' | h'
        · exact .inl h'
        · simp only [List.mem_singleton] at h'
          subst h'
          exact .inr ⟨rfl, .inl (ih₁ (register_es_mem es ls (.jbool b) (nid ++ "-end")))⟩
      · exact .inr ⟨he, hc.imp id (fun h' => by simpa [nestedEntries] using h')⟩
    | null =>
      obtain ⟨ih₁, ih₂⟩ := processChildren_complete nm nid rest bidx pushed
        (register es ls .null (nid ++ "-end")).1
        (register es ls .null (nid ++ "-end")).2
        (ks ++ [Link.mk nm opt .null])
      refine ⟨(register_es_mono es ls .null (nid ++ "-end")).trans ih₁, fun l hl => ?_⟩
      rcases ih₂ l hl with h | ⟨he, hc⟩
      · rcases List.mem_append.1 h with h' | h'
        · exact .inl h'
        · simp only [List.mem_singleton] at h'
          subst h'
          exact .inr ⟨rfl, .inl (ih₁ (register_es_mem es ls .null (nid ++ "-end")))⟩
      · exact .inr ⟨he, hc.imp id (fun h' => by simpa [nestedEntries] using h')⟩
    | arr a =>
      obtain ⟨ih₁, ih₂⟩ := processChildren_complete nm nid rest bidx pushed
        (register es ls (.arr a) (nid ++ "-end")).1
        (register es ls (.arr a) (nid ++ "-end")).2
        (ks ++ [Link.mk nm opt (.arr a)])
      refine ⟨(register_es_mono es ls (.arr a) (nid ++ "-end")).trans ih₁, fun l hl => ?_⟩
      rcases ih₂ l hl with h | ⟨he, hc⟩
      · rcases List.mem_append.1 h with h' | h'
        · exact .inl h'
        · simp only [List.mem_singleton] at h'
          subst h'
          exact .inr ⟨rfl, .inl (ih₁ (register_es_mem es ls (.arr a) (nid ++ "-end")))⟩
      · exact .inr ⟨he, hc.imp id (fun h' => by simpa [nestedEntries] using h')⟩

theorem loop_complete :
    ∀ (fuel : Nat) (stack : List Node) (es : List Json) (ls : List (List String))
      (ks : List Link) (es' : List Json) (ls' : List (List String)) (ks' : List Link),
      loop fuel stack es ls ks = .ok (es', ls', ks') →
      es ⊆ es' ∧ (∀ n ∈ stack, Json.str n.name ∈ es') ∧
        ∀ l ∈ ks', l ∈ ks ∨ (Json.str l.event ∈ es' ∧ l.children ∈ es')
  | _, [], es, ls, ks, es', ls', ks', h => by
    simp only [loop, Except.ok.injEq, Prod.mk.injEq] at h
    obtain ⟨he, _, hk⟩ := h
    subst he; subst hk
    exact ⟨List.Subset.refl _, by simp, fun l hl => .inl hl⟩
  | 0, _ :: _, _, _, _, _, _, _, h => by simp [loop] at h
  | fuel + 1, node :: rest, es, ls, ks, es', ls', ks', h => by
    simp only [loop] at h
    cases hc : node.children with
    | obj kvs =>
      rw [hc] at h
      obtain ⟨ih₁, ih₂, ih₃⟩ := loop_complete fuel _ _ _ _ es' ls' ks' h
      obtain ⟨hp₁, hp₂⟩ := processChildren_complete node.name node.id kvs 0 []
        (register es ls (.str node.name) node.id).1
        (register es ls (.str node.name) node.id).2 ks
      have hes₁ : (register es ls (.str node.name) node.id).1 ⊆ es' := hp₁.trans ih₁
      have hname : Json.str node.name ∈ es' :=
        hes₁ (register_es_mem es ls (.str node.name) node.id)
      refine ⟨(register_es_mono es ls (.str node.name) node.id).trans hes₁,
        fun n hn => ?_, fun l hl => ?_⟩
      · rcases List.mem_cons.1 hn with h' | h'
        · subst h'; exact hname
        · exact ih₂ n (List.mem_append.2 (.inr h'))
      · rcases ih₃ l hl with h' | h'
        · rcases hp₂ l h' with h'' | ⟨he, hc'⟩
          · exact .inl h''
          · refine .inr ⟨by rw [he]; exact hname, ?_⟩
            rcases hc' with h₃ | h₃
            · exact ih₁ h₃
            · obtain ⟨e, hee, hl'⟩ := List.mem_map.1 h₃
              have hnames := processChildren_names node.name node.id kvs 0
                (register es ls (.str node.name) node.id).1
                (register es ls (.str node.name) node.id).2 ks
              have hmem : e.1 ∈ ((processChildren node.name node.id kvs 0 []
                  (register es ls (.str node.name) node.id).1
                  (register es ls (.str node.name) node.id).2 ks).1).map Node.name := by
                rw [hnames]
                exact List.mem_map.2 ⟨e, hee, rfl⟩
              obtain ⟨nmem, hnm, hnm'⟩ := List.mem_map.1 hmem
              rw [← hl', ← hnm']
              exact ih₂ nmem (List.mem_append.2 (.inl (List.mem_reverse.2 hnm)))
        · exact .inr h'
    | str s => rw [hc] at h; simp at h
    | num n => rw [hc] at h; simp at h
    | jbool b => rw [hc] at h; simp at h
    | null => rw [hc] at h; simp at h
    | arr a => rw [hc] at h; simp at h

/-- C4: completeness — for every accepted tree, the source and the target
of every returned link are members of the returned events list (string
event names are compared as JSON string values, as the source's `in`
does). -/
theorem claim_C4 (j : Json) (es : List Json) (ls : List (List String)) (ks : List Link)
    (h : parse_story j = .ok (es, ls, ks)) :
    ∀ l ∈ ks, Json.str l.event ∈ es ∧ l.children ∈ es := by
  unfold parse_story at h
  split at h
  · simp at h
  · split at h
    · obtain ⟨_, _, h₃⟩ := loop_complete _ _ _ _ _ _ _ _ h
      intro l hl
      rcases h₃ l hl with h' | h'
      · simp at h'
      · exact h'
    · simp at h

/-- C4 (witness): completeness evaluated at the Scenario 1 tree for its
first link `(S, A, E1)`: both endpoints are in the events list. -/
theorem claim_C4_witness :
    Json.str "S" ∈ [Json.str "S", Json.str "E1", Json.str "E2"] ∧
      Json.str "E1" ∈ [Json.str "S", Json.str "E1", Json.str "E2"] :=
  claim_C4 s1 [Json.str "S", Json.str "E1", Json.str "E2"]
    [["A"], ["A-end"], ["A-end"]]
    [Link.mk "S" "A" (.str "E1"), Link.mk "S" "B" (.str "E2")] (by decide)
    (Link.mk "S" "A" (.str "E1")) (by decide)

mutual

/-- Well-shapedness of the value attached to an event occurrence: it must
be a mapping whose outcome values are themselves well-shaped, which is
exactly what the loop needs in order to never raise the `.items()`
attribute error. -/
inductive OkChildren : Json → Prop where
  | obj : ∀ kvs, OkKVs kvs → OkChildren (.obj kvs)

/-- Well-shapedness of the `(option, outcome)` entries of a children
mapping. -/
inductive OkKVs : List (String × Json) → Prop where
  | nil : OkKVs []
  | cons : ∀ k v rest, OkOutcome v → OkKVs rest → OkKVs ((k, v) :: rest)

/-- Well-shapedness of an outcome: any non-mapping value is a terminal the
loop consumes without recursing; a mapping is a nested branch whose values
must again be well-shaped children mappings. -/
inductive OkOutcome : Json → Prop where
  | term : ∀ v, is_dict v = false → OkOutcome v
  | nest : ∀ ts, OkEntries ts → OkOutcome (.obj ts)

/-- Well-shapedness of the `(event, children)` entries of a nested
branch mapping (and of the top-level mapping). -/
inductive OkEntries : List (String × Json) → Prop where
  | nil : OkEntries []
  | cons : ∀ k v rest, OkChildren v → OkEntries rest → OkEntries ((k, v) :: rest)

end

theorem okChildren_inv {j : Json} (h : OkChildren j) :
    ∃ kvs, j = .obj kvs ∧ OkKVs kvs := by
  cases h with
  | obj kvs hk => exact ⟨kvs, rfl, hk⟩

theorem okEntries_mem :
    ∀ {ts : List (String × Json)}, OkEntries ts → ∀ p ∈ ts, OkChildren p.2
  | [], _, p, hp => by simp at hp
  | (k, v) :: rest, h, p, hp => by
    cases h with
    | cons _ _ _ hv hrest =>
      rcases List.mem_cons.1 hp with h' | h'
      · subst h'; exact hv
      · exact okEntries_mem hrest p h'

theorem owt_pos (j : Json) : 1 ≤ owt j := by
  cases j <;> simp [owt]

theorem stackW_nil : stackW [] = 0 := rfl

theorem stackW_cons (n : Node) (rest : List Node) :
    stackW (n :: rest) = owt n.children + stackW rest := by
  simp [stackW]

theorem stackW_append (a b : List Node) : stackW (a ++ b) = stackW a + stackW b := by
  simp [stackW]

theorem stackW_reverse (a : List Node) : stackW a.reverse = stackW a := by
  simp only [stackW, List.map_reverse]
  exact List.sum_reverse _

theorem stackW_enum_nodes (nid : String) :
    ∀ (ts : List (String × Json)) (b : Nat),
      stackW ((ts.enumFrom b).map fun e => Node.mk e.2.1 e.2.2 (nid ++ "-" ++ Nat.repr e.1)) =
        (ts.map fun e => owt e.2).sum
  | [], _ => rfl
  | _ :: rest, b => by
    simp only [List.enumFrom, List.map_cons, stackW_cons, List.sum_cons]
    rw [stackW_enum_nodes nid rest (b + 1)]

theorem values_sum_le_lwt : ∀ ts : List (String × Json), (ts.map fun e => owt e.2).sum ≤ lwt ts
  | [] => le_refl 0
  | (k, v) :: rest => by
    simp only [List.map_cons, List.sum_cons, lwt]
    have := values_sum_le_lwt rest
    omega

theorem processChildren_weight (nm nid : String) :
    ∀ (kvs : List (String × Json)) (bidx : Nat) (pushed : List Node)
      (es : List Json) (ls : List (List String)) (ks : List Link),
      stackW (processChildren nm nid kvs bidx pushed es ls ks).1 ≤ stackW pushed + lwt kvs
  | [], _, pushed, _, _, _ => by simp [processChildren, lwt]
  | (opt, outcome) :: rest, bidx, pushed, es, ls, ks => by
    cases outcome with
    | obj ts =>
      have ih := processChildren_weight nm nid rest (bidx + ts.length)
        (pushed ++ (ts.enumFrom bidx).map fun e =>
          Node.mk e.2.1 e.2.2 (nid ++ "-" ++ Nat.repr e.1))
        es ls (ks ++ ts.map fun e => Link.mk nm opt (.str e.1))
      rw [stackW_append, stackW_enum_nodes] at ih
      have hts := values_sum_le_lwt ts
      simp only [processChildren, lwt, owt]
      omega
    | str s =>
      have ih := processChildren_weight nm nid rest bidx pushed
        (register es ls (.str s) (nid ++ "-end")).1
        (register es ls (.str s) (nid ++ "-end")).2
        (ks ++ [Link.mk nm opt (.str s)])
      simp only [processChildren, lwt, owt]
      omega
    | num n =>
      have ih := processChildren_weight nm nid rest bidx pushed
        (register es ls (.num n) (nid ++ "-end")).1
        (register es ls (.num n) (nid ++ "-end")).2
        (ks ++ [Link.mk nm opt (.num n)])
      simp only [processChildren, lwt, owt]
      omega
    | jbool b =>
      have ih := processChildren_weight nm nid rest bidx pushed
        (register es ls (.jbool b) (nid ++ "-end")).1
        (register es ls (.jbool b) (nid ++ "-end")).2
        (ks ++ [Link.mk nm opt (.jbool b)])
      simp only [processChildren, lwt, owt]
      omega
    | null =>
      have ih := processChildren_weight nm nid rest bidx pushed
        (register es ls .null (nid ++ "-end")).1
        (register es ls .null (nid ++ "-end")).2
        (ks ++ [Link.mk nm opt .null])
      simp only [processChildren, lwt, owt]
      omega
    | arr a =>
      have ih := processChildren_weight nm nid rest bidx pushed
        (register es ls (.arr a) (nid ++ "-end")).1
        (register es ls (.arr a) (nid ++ "-end")).2
        (ks ++ [Link.mk nm opt (.arr a)])
      simp only [processChildren, lwt, owt]
      omega

theorem processChildren_ok (nm nid : String) :
    ∀ (kvs : List (String × Json)) (bidx : Nat) (pushed : List Node)
      (es : List Json) (ls : List (List String)) (ks : List Link),
      OkKVs kvs → (∀ n ∈ pushed, OkChildren n.children) →
      ∀ n ∈ (processChildren nm nid kvs bidx pushed es ls ks).1, OkChildren n.children
  | [], _, _, _, _, _, _, hp => hp
  | (opt, outcome) :: rest, bidx, pushed, es, ls, ks, hkvs, hp => by
    cases hkvs with
    | cons _ _ _ hout hrest =>
      cases outcome with
      | obj ts =>
        refine processChildren_ok nm nid rest _ _ _ _ _ hrest ?_
        intro n hn
        rcases List.mem_append.1 hn with h' | h'
        · exact hp n h'
        · obtain ⟨e, he, hn'⟩ := List.mem_map.1 h'
          have hsnd : e.2 ∈ ts := by
            have : e.2 ∈ (ts.enumFrom bidx).map Prod.snd := List.mem_map.2 ⟨e, he, rfl⟩
            rwa [List.enumFrom_map_snd] at this
          cases hout with
          | term _ hd => simp [is_dict] at hd
          | nest _ hts =>
            rw [← hn']
            exact okEntries_mem hts e.2 hsnd
      | str s => exact processChildren_ok nm nid rest _ _ _ _ _ hrest hp
      | num n => exact processChildren_ok nm nid rest _ _ _ _ _ hrest hp
      | jbool b => exact processChildren_ok nm nid rest _ _ _ _ _ hrest hp
      | null => exact processChildren_ok nm nid rest _ _ _ _ _ hrest hp
      | arr a => exact processChildren_ok nm nid rest _ _ _ _ _ hrest hp

theorem loop_total :
    ∀ (fuel : Nat) (stack : List Node) (es : List Json) (ls : List (List String))
      (ks : List Link),
      stackW stack ≤ fuel → (∀ n ∈ stack, OkChildren n.children) →
      ∃ r, loop fuel stack es ls ks = .ok r
  | fuel, [], es, ls, ks, _, _ => by cases fuel <;> exact ⟨_, rfl⟩
  | 0, node :: rest, es, ls, ks, hw, hok => by
    have h1 := owt_pos node.children
    rw [stackW_cons] at hw
    omega
  | fuel + 1, node :: rest, es, ls, ks, hw, hok => by
    obtain ⟨kvs, hc, hkvs⟩ := okChildren_inv (hok node (List.mem_cons_self node rest))
    have hwkvs : lwt kvs + stackW rest ≤ fuel := by
      rw [stackW_cons, hc] at hw
      simp only [owt] at hw
      omega
    have hpw := processChildren_weight node.name node.id kvs 0 []
      (register es ls (.str node.name) node.id).1
      (register es ls (.str node.name) node.id).2 ks
    rw [stackW_nil] at hpw
    have hrec : stackW ((processChildren node.name node.id kvs 0 []
        (register es ls (.str node.name) node.id).1
        (register es ls (.str node.name) node.id).2 ks).1.reverse ++ rest) ≤ fuel := by
      rw [stackW_append, stackW_reverse]
      omega
    have hokrec : ∀ n ∈ (processChildren node.name node.id kvs 0 []
        (register es ls (.str node.name) node.id).1
        (register es ls (.str node.name) node.id).2 ks).1.reverse ++ rest,
        OkChildren n.children := by
      intro n hn
      rcases List.mem_append.1 hn with h' | h'
      · exact processChildren_ok node.name node.id kvs 0 [] _ _ ks hkvs (by simp)
          n (List.mem_reverse.1 h')
      · exact hok n (List.mem_cons_of_mem node h')
    obtain ⟨r, hr⟩ := loop_total fuel _
      (processChildren node.name node.id kvs 0 []
        (register es ls (.str node.name) node.id).1
        (register es ls (.str node.name) node.id).2 ks).2.1
      (processChildren node.name node.id kvs 0 []
        (register es ls (.str node.name) node.id).1
        (register es ls (.str node.name) node.id).2 ks).2.2.1
      (processChildren node.name node.id kvs 0 []
        (register es ls (.str node.name) node.id).1
        (register es ls (.str node.name) node.id).2 ks).2.2.2 hrec hokrec
    refine ⟨r, ?_⟩
    simp only [loop]
    rw [hc]
    exact hr

/-- Success test for the embedded pipeline's result. -/
def isOk {α : Type} : Except Err α → Bool
  | .ok _ => true
  | .error _ => false

theorem initNodes_ok (kvs : List (String × Json)) (hok : ∀ p ∈ kvs, OkChildren p.2) :
    ∀ n ∈ initNodes kvs, OkChildren n.children := by
  intro n hn
  unfold initNodes at hn
  rw [List.mem_reverse] at hn
  obtain ⟨e, he, hn'⟩ := List.mem_map.1 hn
  have hsnd : e.2 ∈ kvs := by
    have h2 : e.2 ∈ (List.enumFrom 0 kvs).map Prod.snd := List.mem_map.2 ⟨e, he, rfl⟩
    rwa [List.enumFrom_map_snd] at h2
  rw [← hn']
  exact hok e.2 hsnd

/-- C10: the flattener terminates on every finite well-shaped story tree —
the LIFO work-list loop ends after finitely many iterations (within the
`stackW` fuel bound, because every iteration pushes only nodes built from
strict sub-trees of the popped node's children) and returns a result. -/
theorem claim_C10 (kvs : List (String × Json)) (hne : kvs ≠ [])
    (hok : ∀ p ∈ kvs, OkChildren p.2) :
    isOk (parse_story (.obj kvs)) = true := by
  obtain ⟨r, hr⟩ := loop_total (stackW (initNodes kvs)) (initNodes kvs) [] [] []
    (le_refl _) (initNodes_ok kvs hok)
  unfold parse_story
  have hfalsy : py_falsy (.obj kvs) = false := by
    cases kvs with
    | nil => exact absurd rfl hne
    | cons a l => simp [py_falsy]
  rw [hfalsy]
  simp only [is_dict, Bool.not_true, Bool.or_false, Bool.false_or, if_false, ite_false]
  rw [hr]
  rfl

/-- C10 (witness): the loop terminates with a result on the Scenario 1
tree. -/
theorem claim_C10_witness :
    isOk (parse_story (.obj [("S", .obj [("A", .str "E1"), ("B", .str "E2")])])) = true :=
  claim_C10 [("S", .obj [("A", .str "E1"), ("B", .str "E2")])]
    (by decide)
    (fun p hp => by
      rw [List.mem_singleton] at hp
      rw [hp]
      exact OkChildren.obj _ (OkKVs.cons _ _ _ (OkOutcome.term _ rfl)
        (OkKVs.cons _ _ _ (OkOutcome.term _ rfl) OkKVs.nil)))

/-! Decimal-rendering toolkit: the path ids the loop builds embed
`str(idx + branch_idx)` as `Nat.repr`; the uniqueness argument needs that
decimal strings are non-empty, dash-free and injective. -/

/-- Structural model of `Nat.toDigitsCore 10` with explicit fuel. -/
def decAux : Nat → Nat → List Char
  | 0, _ => []
  | f + 1, n =>
    if n / 10 = 0 then [Nat.digitChar (n % 10)]
    else decAux f (n / 10) ++ [Nat.digitChar (n % 10)]

theorem toDigitsCore_eq : ∀ (f n : Nat) (acc : List Char), n < f →
    Nat.toDigitsCore 10 f n acc = decAux f n ++ acc
  | 0, _, _, h => by omega
  | f + 1, n, acc, h => by
    simp only [Nat.toDigitsCore, decAux]
    by_cases h10 : n / 10 = 0
    · simp [h10]
    · rw [if_neg h10, if_neg h10, toDigitsCore_eq f (n / 10) _ (by omega)]
      simp

theorem repr_data (n : Nat) : (Nat.repr n).data = decAux (n + 1) n := by
  show (Nat.toDigits 10 n).asString.data = _
  rw [Nat.toDigits, toDigitsCore_eq (n + 1) n [] (Nat.lt_succ_self n)]
  simp [List.asString]

theorem digitChar_toNat : ∀ k, k < 10 → (Nat.digitChar k).toNat = 48 + k := by decide

/-- Decimal digit characters, as a bound on their code points. -/
def isDig (c : Char) : Prop := 48 ≤ c.toNat ∧ c.toNat ≤ 57

theorem decAux_digits : ∀ (f n : Nat), ∀ c ∈ decAux f n, isDig c
  | 0, n => by simp [decAux]
  | f + 1, n => by
    intro c hc
    simp only [decAux] at hc
    have hd : isDig (Nat.digitChar (n % 10)) := by
      constructor <;> rw [digitChar_toNat (n % 10) (Nat.mod_lt _ (by omega))] <;> omega
    by_cases h10 : n / 10 = 0
    · rw [if_pos h10] at hc
      simp at hc
      rw [hc]; exact hd
    · rw [if_neg h10] at hc
      rcases List.mem_append.1 hc with h | h
      · exact decAux_digits f (n / 10) c h
      · simp at h; rw [h]; exact hd

theorem decAux_ne_nil (f n : Nat) (h : 0 < f) : decAux f n ≠ [] := by
  cases f with
  | zero => omega
  | succ f =>
    simp only [decAux]
    split <;> simp

/-- Reads a digit string back as a number; inverse of `decAux`. -/
def evalDec (l : List Char) : Nat := l.foldl (fun a c => 10 * a + (c.toNat - 48)) 0

theorem evalDec_decAux : ∀ (f n : Nat), n < f → evalDec (decAux f n) = n
  | 0, _, h => by omega
  | f + 1, n, h => by
    simp only [decAux]
    by_cases h10 : n / 10 = 0
    · rw [if_pos h10]
      simp [evalDec, digitChar_toNat (n % 10) (Nat.mod_lt _ (by omega))]
      omega
    · rw [if_neg h10]
      have hev : evalDec (decAux f (n / 10) ++ [Nat.digitChar (n % 10)]) =
          10 * evalDec (decAux f (n / 10)) + ((Nat.digitChar (n % 10)).toNat - 48) := by
        simp [evalDec, List.foldl_append]
      rw [hev, evalDec_decAux f (n / 10) (by omega),
        digitChar_toNat (n % 10) (Nat.mod_lt _ (by omega))]
      omega

theorem repr_data_inj (a b : Nat) (h : (Nat.repr a).data = (Nat.repr b).data) : a = b := by
  rw [repr_data, repr_data] at h
  have ha := evalDec_decAux (a + 1) a (Nat.lt_succ_self a)
  have hb := evalDec_decAux (b + 1) b (Nat.lt_succ_self b)
  rw [← ha, ← hb, h]

theorem repr_no_dash (k : Nat) : ('-' : Char) ∉ (Nat.repr k).data := by
  intro h
  rw [repr_data] at h
  have hd := decAux_digits (k + 1) k _ h
  have h45 : ('-' : Char).toNat = 45 := by decide
  rcases hd with ⟨h1, h2⟩
  omega

theorem repr_data_ne_nil (k : Nat) : (Nat.repr k).data ≠ [] := by
  rw [repr_data]
  exact decAux_ne_nil (k + 1) k (Nat.succ_pos k)

theorem str_ext {s t : String} (h : s.data = t.data) : s = t := by
  cases s; cases t
  simp only at h
  rw [h]

/-- Splitting a character list at a dash is unambiguous when the part
before the dash is dash-free. -/
theorem splitDash : ∀ (u₁ u₂ v₁ v₂ : List Char), ('-' : Char) ∉ u₁ → ('-' : Char) ∉ u₂ →
    u₁ ++ '-' :: v₁ = u₂ ++ '-' :: v₂ → u₁ = u₂ ∧ v₁ = v₂ := by
  intro u₁
  induction u₁ with
  | nil =>
    intro u₂ v₁ v₂ _ h₂ h
    cases u₂ with
    | nil =>
      simp only [List.nil_append, List.cons.injEq] at h
      exact ⟨rfl, h.2⟩
    | cons c u₂ =>
      simp only [List.nil_append, List.cons_append, List.cons.injEq] at h
      obtain ⟨hc, _⟩ := h
      rw [← hc] at h₂
      exact absurd (List.mem_cons_self _ _) h₂
  | cons c u₁ ih =>
    intro u₂ v₁ v₂ h₁ h₂ h
    cases u₂ with
    | nil =>
      simp only [List.cons_append, List.nil_append, List.cons.injEq] at h
      obtain ⟨hc, _⟩ := h
      rw [hc] at h₁
      exact absurd (List.mem_cons_self _ _) h₁
    | cons d u₂ =>
      simp only [List.cons_append, List.cons.injEq] at h
      obtain ⟨hcd, hrest⟩ := h
      obtain ⟨hu, hv⟩ := ih u₂ v₁ v₂ (fun hm => h₁ (List.mem_cons_of_mem _ hm))
        (fun hm => h₂ (List.mem_cons_of_mem _ hm)) hrest
      exact ⟨by rw [hcd, hu], hv⟩

/-- The path id the loop gives the `k`-th pushed child of a node with path
id `p`: `node.id + "-" + str(k)`. -/
def childId (p : String) (k : Nat) : String := p ++ "-" ++ Nat.repr k

theorem childId_data (p : String) (k : Nat) :
    (childId p k).data = p.data ++ '-' :: (Nat.repr k).data := by
  show ((p ++ "-") ++ Nat.repr k).data = _
  rw [String.data_append, String.data_append]
  have hdash : ("-" : String).data = ['-'] := rfl
  rw [hdash, List.append_assoc]
  rfl

/-- `s` lies in the branch of path ids rooted at `p`: it is `p` itself or
extends `p` across a dash.  Every path id the loop ever derives from a
work-list node with id `p` lies in this set. -/
def Desc (p s : String) : Prop := s = p ∨ ∃ t, s.data = p.data ++ '-' :: t

theorem desc_self (p : String) : Desc p p := .inl rfl

theorem desc_child (p : String) (k : Nat) : Desc p (childId p k) :=
  .inr ⟨(Nat.repr k).data, childId_data p k⟩

theorem desc_len {p s : String} (h : Desc p s) : p.data.length ≤ s.data.length := by
  rcases h with rfl | ⟨t, ht⟩
  · exact le_refl _
  · rw [ht]
    simp only [List.length_append, List.length_cons]
    omega

theorem desc_of_child_desc {p : String} {k : Nat} {s : String} (h : Desc (childId p k) s) :
    Desc p s := by
  rcases h with rfl | ⟨t, ht⟩
  · exact desc_child p k
  · refine .inr ⟨(Nat.repr k).data ++ '-' :: t, ?_⟩
    rw [ht, childId_data]
    simp

theorem not_desc_child_parent (p : String) (k : Nat) : ¬ Desc (childId p k) p := by
  intro h
  have hl := desc_len h
  rw [childId_data] at hl
  simp only [List.length_append, List.length_cons] at hl
  have hp : 0 < (Nat.repr k).data.length := List.length_pos.2 (repr_data_ne_nil k)
  omega

/-- The branches of path ids rooted at `p` and at `q` are disjoint. -/
def DisjDesc (p q : String) : Prop := ∀ s, Desc p s → Desc q s → False

theorem disjDesc_symm {p q : String} (h : DisjDesc p q) : DisjDesc q p :=
  fun s h1 h2 => h s h2 h1

theorem disjDesc_child_left {p q : String} (h : DisjDesc p q) (k : Nat) :
    DisjDesc (childId p k) q :=
  fun s h1 h2 => h s (desc_of_child_desc h1) h2

theorem childId_inj {p q : String} {k k' : Nat} (h : childId p k = childId q k') :
    p = q ∧ k = k' := by
  have hd : (childId p k).data = (childId q k').data := by rw [h]
  rw [childId_data, childId_data] at hd
  have hrev := congrArg List.reverse hd
  simp only [List.reverse_append, List.reverse_cons, List.append_assoc,
    List.singleton_append] at hrev
  have hnd₁ : ('-' : Char) ∉ (Nat.repr k).data.reverse := by
    rw [List.mem_reverse]; exact repr_no_dash k
  have hnd₂ : ('-' : Char) ∉ (Nat.repr k').data.reverse := by
    rw [List.mem_reverse]; exact repr_no_dash k'
  obtain ⟨hu, hv⟩ := splitDash _ _ _ _ hnd₁ hnd₂ hrev
  constructor
  · exact str_ext (List.reverse_injective hv)
  · exact repr_data_inj k k' (List.reverse_injective hu)

theorem childId_sibling_disj (p : String) {k k' : Nat} (hne : k ≠ k') :
    DisjDesc (childId p k) (childId p k') := by
  intro s h1 h2
  rcases h1 with rfl | ⟨t₁, ht₁⟩
  · rcases h2 with h2 | ⟨t₂, ht₂⟩
    · exact hne (childId_inj h2.symm).2.symm
    · rw [childId_data, childId_data, List.append_assoc] at ht₂
      have := List.append_cancel_left ht₂
      simp only [List.cons_append, List.cons.injEq] at this
      have hmem : ('-' : Char) ∈ (Nat.repr k).data := by
        rw [this.2]
        exact List.mem_append.2 (.inr (List.mem_cons_self _ _))
      exact repr_no_dash k hmem
  · rcases h2 with rfl | ⟨t₂, ht₂⟩
    · rw [childId_data, childId_data, List.append_assoc] at ht₁
      have := List.append_cancel_left ht₁
      simp only [List.cons_append, List.cons.injEq] at this
      have hmem : ('-' : Char) ∈ (Nat.repr k').data := by
        rw [this.2]
        exact List.mem_append.2 (.inr (List.mem_cons_self _ _))
      exact repr_no_dash k' hmem
    · rw [childId_data] at ht₁ ht₂
      rw [List.append_assoc] at ht₁ ht₂
      have := (List.append_cancel_left (ht₁.symm.trans ht₂) : _)
      simp only [List.cons_append, List.cons.injEq] at this
      obtain ⟨hu, _⟩ := splitDash _ _ _ _ (repr_no_dash k) (repr_no_dash k') this.2
      exact hne (repr_data_inj k k' hu)

theorem singleton_disj {c₁ c₂ : Char} (h : c₁ ≠ c₂) :
    DisjDesc (String.mk [c₁]) (String.mk [c₂]) := by
  intro s h1 h2
  rcases h1 with rfl | ⟨t₁, ht₁⟩
  · rcases h2 with h2 | ⟨t₂, ht₂⟩
    · have : [c₁] = [c₂] := congrArg String.data h2
      simp at this
      exact h this
    · simp only [List.singleton_append] at ht₂
      have : [c₁] = c₂ :: '-' :: t₂ := ht₂
      simp at this
  · rcases h2 with rfl | ⟨t₂, ht₂⟩
    · simp only [List.singleton_append] at ht₁
      have : [c₂] = c₁ :: '-' :: t₁ := ht₁
      simp at this
    · rw [ht₂] at ht₁
      simp only [List.singleton_append, List.cons.injEq] at ht₁
      exact h ht₁.1.symm

/-- `s` ends with the suffix `"-end"` — the shape of every path id the
loop records for a terminal outcome. -/
def isEndId (s : String) : Bool :=
  decide (s.data.reverse.take 4 = ['d', 'n', 'e', '-'])

theorem isEndId_append_end (p : String) : isEndId (p ++ "-end") = true := by
  unfold isEndId
  rw [decide_eq_true_iff]
  rw [String.data_append]
  have hend : ("-end" : String).data = ['-', 'e', 'n', 'd'] := rfl
  rw [hend, List.reverse_append]
  rfl

/-- The shape of every path id a work-list node can carry: a single
character (top-level seeding) or anything followed by a dash and a decimal
rendering (child seeding). -/
def GoodId (s : String) : Prop :=
  (∃ c, s.data = [c]) ∨ ∃ p k, s.data = p ++ '-' :: (Nat.repr k).data

theorem goodId_childId (p : String) (k : Nat) : GoodId (childId p k) :=
  .inr ⟨p.data, k, childId_data p k⟩

theorem goodId_isEndId_false {s : String} (h : GoodId s) : isEndId s = false := by
  unfold isEndId
  rw [decide_eq_false_iff_not]
  intro hc
  rcases h with ⟨c, hdata⟩ | ⟨p, k, hdata⟩
  · rw [hdata] at hc
    simp at hc
  · rw [hdata, List.reverse_append, List.reverse_cons] at hc
    obtain ⟨r, rs, hrk⟩ : ∃ r rs, (Nat.repr k).data.reverse = r :: rs := by
      cases hrev : (Nat.repr k).data.reverse with
      | nil =>
        exact absurd (List.reverse_eq_nil_iff.1 hrev) (repr_data_ne_nil k)
      | cons r rs => exact ⟨r, rs, rfl⟩
    rw [hrk] at hc
    simp only [List.cons_append, List.take_succ_cons, List.cons.injEq] at hc
    have hdig : isDig r := by
      have : r ∈ (Nat.repr k).data := by
        rw [← List.mem_reverse, hrk]
        exact List.mem_cons_self _ _
      rw [repr_data] at this
      exact decAux_digits (k + 1) k r this
    have : ('d' : Char).toNat = 100 := by decide
    obtain ⟨h1, h2⟩ := hdig
    rw [hc.1] at h1 h2
    omega

theorem flatten_set_perm :
    ∀ (ls : List (List String)) (i : Nat) (x : String), i < ls.length →
      ((ls.set i (ls.getD i [] ++ [x])).flatten).Perm (x :: ls.flatten)
  | [], i, x, h => by simp at h
  | b :: rest, 0, x, _ => by
    simp only [List.set_cons_zero, List.getD_cons_zero, List.flatten_cons]
    calc ((b ++ [x]) ++ rest.flatten).Perm ((x :: b) ++ rest.flatten) :=
          (List.perm_append_singleton x b).append_right _
      _ = x :: (b ++ rest.flatten) := rfl
  | b :: rest, i + 1, x, h => by
    simp only [List.set_cons_succ, List.getD_cons_succ, List.flatten_cons]
    have ih := flatten_set_perm rest i x (by simpa using h)
    exact (ih.append_left b).trans List.perm_middle

theorem register_flatten_perm (es : List Json) (ls : List (List String)) (x : Json)
    (id : String) (hlen : es.length = ls.length) :
    ((register es ls x id).2.flatten).Perm (id :: ls.flatten) := by
  unfold register
  split
  · rw [List.flatten_append]
    simp only [List.flatten_cons, List.flatten_nil, List.append_nil]
    exact List.perm_append_singleton _ _
  · next h =>
    have hin : x ∈ es := not_not.1 h
    exact flatten_set_perm ls (es.indexOf x) id (hlen ▸ List.indexOf_lt_length.2 hin)

theorem processChildren_flatten (nm nid : String) :
    ∀ (kvs : List (String × Json)) (bidx : Nat) (pushed : List Node)
      (es : List Json) (ls : List (List String)) (ks : List Link),
      es.length = ls.length →
      (((processChildren nm nid kvs bidx pushed es ls ks).2.2.1.flatten).filter
          (fun s => !(isEndId s))).Perm
        ((ls.flatten).filter (fun s => !(isEndId s)))
  | [], _, _, _, _, _, _ => List.Perm.refl _
  | (opt, outcome) :: rest, bidx, pushed, es, ls, ks, hlen => by
    have hstep : ∀ (ks₀ : List Link),
        ((((processChildren nm nid rest bidx pushed
            (register es ls outcome (nid ++ "-end")).1
            (register es ls outcome (nid ++ "-end")).2 ks₀).2.2.1.flatten).filter
              (fun s => !(isEndId s))).Perm
          ((ls.flatten).filter (fun s => !(isEndId s)))) := by
      intro ks₀
      have ih := processChildren_flatten nm nid rest bidx pushed
        (register es ls outcome (nid ++ "-end")).1
        (register es ls outcome (nid ++ "-end")).2 ks₀
        (register_len es ls outcome (nid ++ "-end") hlen)
      refine ih.trans ?_
      have hperm := (register_flatten_perm es ls outcome (nid ++ "-end") hlen).filter
        (fun s => !(isEndId s))
      refine hperm.trans ?_
      rw [List.filter_cons_of_neg]
      simp [isEndId_append_end]
    cases outcome with
    | obj ts =>
      exact processChildren_flatten nm nid rest (bidx + ts.length)
        (pushed ++ (ts.enumFrom bidx).map fun e =>
          Node.mk e.2.1 e.2.2 (nid ++ "-" ++ Nat.repr e.1))
        es ls (ks ++ ts.map fun e => Link.mk nm opt (.str e.1)) hlen
    | str s => exact hstep (ks ++ [Link.mk nm opt (.str s)])
    | num n => exact hstep (ks ++ [Link.mk nm opt (.num n)])
    | jbool b => exact hstep (ks ++ [Link.mk nm opt (.jbool b)])
    | null => exact hstep (ks ++ [Link.mk nm opt .null])
    | arr a => exact hstep (ks ++ [Link.mk nm opt (.arr a)])

theorem le_of_mem_enumFrom {α : Type} :
    ∀ (ts : List α) (b : Nat) (e : Nat × α), e ∈ List.enumFrom b ts → b ≤ e.1
  | [], _, e, h => by simp [List.enumFrom] at h
  | t :: ts, b, e, h => by
    rcases List.mem_cons.1 h with h' | h'
    · rw [h']
    · have := le_of_mem_enumFrom ts (b + 1) e h'
      omega

theorem lt_of_mem_enumFrom {α : Type} :
    ∀ (ts : List α) (b : Nat) (e : Nat × α), e ∈ List.enumFrom b ts → e.1 < b + ts.length
  | [], _, e, h => by simp [List.enumFrom] at h
  | t :: ts, b, e, h => by
    rcases List.mem_cons.1 h with h' | h'
    · rw [h']
      simp
    · have := lt_of_mem_enumFrom ts (b + 1) e h'
      simp only [List.length_cons]
      omega

theorem pushed_goodId (nid : String) (ts : List (String × Json)) (b : Nat) :
    ∀ n ∈ (List.enumFrom b ts).map fun e => Node.mk e.2.1 e.2.2 (nid ++ "-" ++ Nat.repr e.1),
      GoodId n.id := by
  intro n hn
  obtain ⟨e, _, hne⟩ := List.mem_map.1 hn
  rw [← hne]
  exact goodId_childId nid e.1

theorem pushed_pairwise (nid : String) :
    ∀ (ts : List (String × Json)) (b : Nat),
      List.Pairwise (fun n m => DisjDesc n.id m.id)
        ((List.enumFrom b ts).map fun e => Node.mk e.2.1 e.2.2 (nid ++ "-" ++ Nat.repr e.1))
  | [], _ => List.Pairwise.nil
  | t :: ts, b => by
    simp only [List.enumFrom, List.map_cons]
    refine List.Pairwise.cons ?_ (pushed_pairwise nid ts (b + 1))
    intro m hm
    obtain ⟨e, he, hme⟩ := List.mem_map.1 hm
    have hb := le_of_mem_enumFrom ts (b + 1) e he
    rw [← hme]
    exact childId_sibling_disj nid (by omega)

theorem toNat_ofNat_valid (n : Nat) (h : n < 55296) : (Char.ofNat n).toNat = n := by
  unfold Char.ofNat
  rw [dif_pos (Or.inl h : Nat.isValidChar n)]
  simp [Char.ofNatAux, Char.toNat, UInt32.toNat, UInt32.ofNat']

theorem init_pairwise :
    ∀ (kvs : List (String × Json)) (b : Nat), b + kvs.length ≤ 26 →
      List.Pairwise (fun n m => DisjDesc n.id m.id)
        ((List.enumFrom b kvs).map fun e =>
          Node.mk e.2.1 e.2.2 (String.mk [Char.ofNat (65 + e.1)]))
  | [], _, _ => List.Pairwise.nil
  | t :: kvs, b, hb => by
    simp only [List.length_cons] at hb
    simp only [List.enumFrom, List.map_cons]
    refine List.Pairwise.cons ?_ (init_pairwise kvs (b + 1) (by omega))
    intro m hm
    obtain ⟨e, he, hme⟩ := List.mem_map.1 hm
    have h1 := le_of_mem_enumFrom kvs (b + 1) e he
    have h2 := lt_of_mem_enumFrom kvs (b + 1) e he
    rw [← hme]
    refine singleton_disj ?_
    intro hc
    have hcb := toNat_ofNat_valid (65 + b) (by omega)
    have hce := toNat_ofNat_valid (65 + e.1) (by omega)
    rw [hc, hce] at hcb
    omega

theorem loop_nodup :
    ∀ (fuel : Nat) (stack : List Node) (es : List Json) (ls : List (List String))
      (ks : List Link) (es' : List Json) (ls' : List (List String)) (ks' : List Link),
      loop fuel stack es ls ks = .ok (es', ls', ks') →
      es.length = ls.length →
      (∀ l ∈ ls, l ≠ []) →
      (∀ n ∈ stack, GoodId n.id) →
      List.Pairwise (fun n m => DisjDesc n.id m.id) stack →
      (∀ r ∈ ls.flatten.filter (fun s => !(isEndId s)), ∀ n ∈ stack, ¬ Desc n.id r) →
      (ls.flatten.filter (fun s => !(isEndId s))).Nodup →
      (ls'.flatten.filter (fun s => !(isEndId s))).Nodup
  | _, [], es, ls, ks, es', ls', ks', h, _, _, _, _, _, hnd => by
    simp only [loop, Except.ok.injEq, Prod.mk.injEq] at h
    obtain ⟨_, hl, _⟩ := h
    rw [← hl]
    exact hnd
  | 0, _ :: _, _, _, _, _, _, _, h, _, _, _, _, _, _ => by simp [loop] at h
  | fuel + 1, node :: rest, es, ls, ks, es', ls', ks', h, hlen, hne, hgood, hpw, hfresh,
      hnd => by
    simp only [loop] at h
    cases hc : node.children with
    | obj kvs =>
      rw [hc] at h
      have hlen₁ := register_len es ls (.str node.name) node.id hlen
      have hne₁ := register_ne es ls (.str node.name) node.id hne
      have hpcperm := processChildren_flatten node.name node.id kvs 0 []
        (register es ls (.str node.name) node.id).1
        (register es ls (.str node.name) node.id).2 ks hlen₁
      have hregperm := (register_flatten_perm es ls (.str node.name) node.id hlen).filter
        (fun s => !(isEndId s))
      have hgoodnode : GoodId node.id := hgood node (List.mem_cons_self _ _)
      have hfc : (List.filter (fun s => !(isEndId s)) (node.id :: ls.flatten)) =
          node.id :: List.filter (fun s => !(isEndId s)) ls.flatten := by
        rw [List.filter_cons_of_pos]
        simp [goodId_isEndId_false hgoodnode]
      have hperm : ((processChildren node.name node.id kvs 0 []
            (register es ls (.str node.name) node.id).1
            (register es ls (.str node.name) node.id).2 ks).2.2.1.flatten.filter
              (fun s => !(isEndId s))).Perm
          (node.id :: ls.flatten.filter (fun s => !(isEndId s))) := by
        refine (hpcperm.trans hregperm).trans ?_
        rw [hfc]
      have hpush := processChildren_pushed_eq node.name node.id kvs 0 []
        (register es ls (.str node.name) node.id).1
        (register es ls (.str node.name) node.id).2 ks
      rw [List.nil_append] at hpush
      have hnotmem : node.id ∉ ls.flatten.filter (fun s => !(isEndId s)) := by
        intro hmem
        exact hfresh node.id hmem node (List.mem_cons_self _ _) (desc_self node.id)
      have hpwrest := (List.pairwise_cons.1 hpw).2
      have hpwhead := (List.pairwise_cons.1 hpw).1
      have hinv := processChildren_labels_inv node.name node.id kvs 0 []
        (register es ls (.str node.name) node.id).1
        (register es ls (.str node.name) node.id).2 ks hlen₁ hne₁
      refine loop_nodup fuel _ _ _ _ es' ls' ks' h hinv.1 hinv.2 ?_ ?_ ?_ ?_
      · intro n hn
        rcases List.mem_append.1 hn with h' | h'
        · rw [List.mem_reverse, hpush] at h'
          exact pushed_goodId node.id (nestedEntries kvs) 0 n h'
        · exact hgood n (List.mem_cons_of_mem _ h')
      · refine List.pairwise_append.2 ⟨?_, hpwrest, ?_⟩
        · refine List.pairwise_reverse.2 ?_
          have hpp : List.Pairwise (fun n m => DisjDesc n.id m.id)
              (processChildren node.name node.id kvs 0 []
                (register es ls (.str node.name) node.id).1
                (register es ls (.str node.name) node.id).2 ks).1 := by
            rw [hpush]
            exact pushed_pairwise node.id (nestedEntries kvs) 0
          exact hpp.imp fun hd => disjDesc_symm hd
        · intro a ha b hb
          rw [List.mem_reverse, hpush] at ha
          obtain ⟨e, _, hae⟩ := List.mem_map.1 ha
          rw [← hae]
          exact disjDesc_child_left (hpwhead b hb) e.1
      · intro r hr n hn
        rw [hperm.mem_iff] at hr
        rcases List.mem_cons.1 hr with hr' | hr'
        · subst hr'
          rcases List.mem_append.1 hn with h' | h'
          · rw [List.mem_reverse, hpush] at h'
            obtain ⟨e, _, hne'⟩ := List.mem_map.1 h'
            rw [← hne']
            exact not_desc_child_parent node.id e.1
          · intro hdesc
            exact hpwhead n h' node.id (desc_self node.id) hdesc
        · rcases List.mem_append.1 hn with h' | h'
          · rw [List.mem_reverse, hpush] at h'
            obtain ⟨e, _, hne'⟩ := List.mem_map.1 h'
            rw [← hne']
            intro hdesc
            exact hfresh r hr' node (List.mem_cons_self _ _) (desc_of_child_desc hdesc)
          · exact hfresh r hr' n (List.mem_cons_of_mem _ h')
      · exact hperm.nodup_iff.2 (List.nodup_cons.2 ⟨hnotmem, hnd⟩)
    | str s => rw [hc] at h; simp at h
    | num n => rw [hc] at h; simp at h
    | jbool b => rw [hc] at h; simp at h
    | null => rw [hc] at h; simp at h
    | arr a => rw [hc] at h; simp at h

/-- C3 (amended): path ids are unique per occurrence only for the
non-terminal occurrences: for every tree accepted by the flattener whose
top-level mapping has at most 26 entries (the ceiling of the single-letter
root-id scheme; the spec leaves more than 26 top-level events undefined),
the recorded path ids that do not end in `"-end"` — exactly those of the
popped work-list nodes — are pairwise distinct across all labels entries.
The `"-end"` path ids of terminal outcomes may repeat (all terminal
outcomes of one parent share its id), as the counterexample shows. -/
theorem claim_C3 (j : Json) (es : List Json) (ls : List (List String)) (ks : List Link)
    (h : parse_story j = .ok (es, ls, ks)) (h26 : ∀ kvs, j = .obj kvs → kvs.length ≤ 26) :
    ((ls.flatten).filter fun s => !(isEndId s)).Nodup := by
  cases j with
  | obj kvs =>
    unfold parse_story at h
    cases hemp : kvs.isEmpty with
    | true =>
      simp only [py_falsy, hemp, Bool.true_or, if_true] at h
      cases h
    | false =>
      simp only [py_falsy, is_dict, hemp, Bool.not_true, Bool.or_false, if_false,
        ite_false] at h
      refine loop_nodup _ _ _ _ _ _ _ _ h rfl (by simp) ?_ ?_ (by simp) (by simp)
      · intro n hn
        unfold initNodes at hn
        rw [List.mem_reverse] at hn
        obtain ⟨e, _, hne⟩ := List.mem_map.1 hn
        rw [← hne]
        exact .inl ⟨_, rfl⟩
      · show List.Pairwise (fun n m => DisjDesc n.id m.id) (initNodes kvs)
        unfold initNodes
        refine List.pairwise_reverse.2 ?_
        exact (init_pairwise kvs 0 (by simpa using h26 kvs rfl)).imp
          fun hd => disjDesc_symm hd
  | str s => simp [parse_story, is_dict] at h
  | num n => simp [parse_story, is_dict] at h
  | jbool b => simp [parse_story, is_dict] at h
  | null => simp [parse_story, is_dict] at h
  | arr a => simp [parse_story, is_dict] at h

/-- C3 (amended, witness): on the Scenario 1 tree the non-terminal path
ids are just `["A"]`, which has no duplicates. -/
theorem claim_C3_witness : (["A"] : List String).Nodup := by
  have h := claim_C3 s1 [Json.str "S", Json.str "E1", Json.str "E2"]
    [["A"], ["A-end"], ["A-end"]]
    [Link.mk "S" "A" (.str "E1"), Link.mk "S" "B" (.str "E2")] (by decide)
    (fun kvs hk => by
      injection hk with hk'
      rw [← hk']
      decide)
  have he : (([["A"], ["A-end"], ["A-end"]] : List (List String)).flatten).filter
      (fun s => !(isEndId s)) = ["A"] := by decide
  rwa [he] at h

end TRPG
